import Mathlib

/-!
Shallow embedding of the memory-layout engine of `pb_update.py` (Picoblaze
ROM update script) and proofs about it.

Modelling conventions:
* Python strings are modelled as `List Char` (a Python `str` is a sequence
  of characters; `str.split(sep)` for a one-character separator is
  `List.splitOn`, `sep.join` is `List.intercalate`).
* Python integers are modelled as `Int` (arbitrary precision, signed).
* The mutable classes `Bram`, `MemRow`, `MemLayout` become structures with
  explicit state passing: each mutating method returns the updated value.
* `copy.deepcopy` is the identity in this functional setting (values are
  already copied).
-/

namespace PbUpdate

/-- A Python string, as a sequence of characters. -/
abbrev Str := List Char

/-! ## Bram (class `Bram`, pb_update.py lines 247-263)

`Bram.__init__` stores instance name, primitive, loc, depth, width and sets
`lsb = 0`.  `depth` and `width` are `Int` here: the layout engine only ever
works with numerically resolved blocks (the discovery step with its
possibly-unresolved values is modelled separately below for claim C8). -/

structure Bram where
  instName : Str
  primitive : Str
  loc : Str
  depth : Int
  width : Int
  lsb : Int
deriving DecidableEq, Repr, Inhabited

/-- Property `Bram.msb` (line 257-259): `self.lsb + self.width - 1`. -/
def Bram.msb (b : Bram) : Int := b.lsb + b.width - 1

/-! ## MemRow (class `MemRow`, lines 331-384) -/

structure MemRow where
  start : Int
  stop : Int          -- the source attribute is named `end`, a Lean keyword
  brams : List Bram
  target_width : Int
deriving DecidableEq, Repr, Inhabited

/-- Helper for `MemRow.__init__`: the loop
`lsb = 0; for b in reversed(self.brams): b.lsb = lsb; lsb += b.width`.
Assigns each block the summed width of the blocks after it, returning the
re-assigned list together with the final accumulator (the total width). -/
def assignR : List Bram → List Bram × Int
  | [] => ([], 0)
  | b :: rest =>
    let p := assignR rest
    ({ b with lsb := p.2 } :: p.1, p.2 + b.width)

/-- Constructor `MemRow.__init__(start, end, brams)` (lines 332-346).  `target_width`
is always 18.  After the reversed-order lsb assignment, if the row is
nonempty every lsb is shifted up by `target_width - brams[0].width`. -/
def MemRow.init (start stop : Int) (brams : List Bram) : MemRow :=
  let bs := (assignR brams).1
  let bs :=
    if (18 : Int) > 0 ∧ bs ≠ [] then
      let shift := 18 - (bs.headD default).width
      bs.map fun b => { b with lsb := b.lsb + shift }
    else bs
  ⟨start, stop, bs, 18⟩

/-- Property `MemRow.depth` (lines 348-350): `self.end - self.start + 1`. -/
def MemRow.depth (r : MemRow) : Int := r.stop - r.start + 1

/-- Property `MemRow.width` (lines 352-354): `sum(b.width for b in self.brams)`. -/
def MemRow.width (r : MemRow) : Int := (r.brams.map Bram.width).sum

/-- Method `MemRow.add_bram(b)` (lines 356-362): append `b`; if the row already
had a block, `b.lsb = self.brams[-2].lsb - b.width` (the previous last
block), otherwise `b.lsb = self.target_width - b.width` and
`self.end = self.start + b.depth - 1`. -/
def MemRow.add_bram (r : MemRow) (b : Bram) : MemRow :=
  if r.brams ≠ [] then
    { r with brams := r.brams ++ [{ b with lsb := (r.brams.getLastD default).lsb - b.width }] }
  else
    { r with brams := [{ b with lsb := r.target_width - b.width }],
             stop := r.start + b.depth - 1 }

/-- Method `MemRow.valid(width)` (lines 364-365): `True if self.width == width else False`. -/
def MemRow.valid (r : MemRow) (width : Int) : Bool := r.width == width

/-! ## Decimal / hex rendering of Python integers (for the BMM text) -/

/-- Digit characters for bases up to 16, upper case (as Python `X` formatting). -/
def hexDigitU (n : Nat) : Char :=
  if n < 10 then Char.ofNat (48 + n) else Char.ofNat (55 + n)

/-- Fuel-driven base-`b` digit expansion, most significant digit first. -/
def digitsAux (b : Nat) : Nat → Nat → List Char
  | 0, _ => []
  | fuel + 1, n => if n < b then [hexDigitU n] else digitsAux b fuel (n / b) ++ [hexDigitU (n % b)]

/-- Decimal rendering of a natural number (`str(n)` for `n >= 0`). -/
def natToDec (n : Nat) : Str := digitsAux 10 (n + 1) n

/-- Upper-case hex rendering of a natural number. -/
def natToHex (n : Nat) : Str := digitsAux 16 (n + 1) n

/-- Python `str(x)` for an integer. -/
def intRepr (x : Int) : Str :=
  if x < 0 then '-' :: natToDec (-x).toNat else natToDec x.toNat

/-- Python `'{:08X}'.format(x)`: zero-padded to total width 8, the sign
(for a negative argument) counting toward the width. -/
def pyHex08 (x : Int) : Str :=
  if x < 0 then
    let d := natToHex (-x).toNat
    '-' :: (List.replicate (7 - d.length) '0' ++ d)
  else
    let d := natToHex x.toNat
    List.replicate (8 - d.length) '0' ++ d

/-- Property `MemRow.bus_block` (lines 367-371): one lane per block,
`'    {} [{}:{}] LOC = {} OUTPUT = {}.mem;'`, joined with newlines between
`'  BUS_BLOCK\n'` and `'\n  END_BUS_BLOCK;'`. -/
def MemRow.bus_block (r : MemRow) : Str :=
  let lanes := r.brams.map fun b =>
    "    ".toList ++ b.instName ++ " [".toList ++ intRepr b.msb ++ ":".toList ++
      intRepr b.lsb ++ "] LOC = ".toList ++ b.loc ++ " OUTPUT = ".toList ++
      b.loc ++ ".mem;".toList
  "  BUS_BLOCK\n".toList ++ List.intercalate ['\n'] lanes ++ "\n  END_BUS_BLOCK;".toList

/-! ## MemLayout (class `MemLayout`, lines 387-431) -/

structure MemLayout where
  rows : List MemRow
deriving DecidableEq, Repr, Inhabited

/-- Constructor `MemLayout.__init__` (lines 388-389). -/
def MemLayout.empty : MemLayout := ⟨[]⟩

/-- Method `MemLayout.add_row(row, relative_start=True)` (lines 417-421): when
`relative_start` holds and rows exist, translate the new row to start just
after the previous row's end; then append.  Every call site passes the
default `True`. -/
def MemLayout.add_row (lo : MemLayout) (row : MemRow) (relative_start : Bool) : MemLayout :=
  if relative_start ∧ lo.rows ≠ [] then
    let prevEnd := (lo.rows.getLastD default).stop
    ⟨lo.rows ++ [{ row with start := row.start + prevEnd + 1, stop := row.stop + prevEnd + 1 }]⟩
  else
    ⟨lo.rows ++ [row]⟩

/-- Method `MemLayout.valid(depth, width)` (lines 423-425): all rows width-valid
and the row depths sum to `depth` exactly. -/
def MemLayout.valid (lo : MemLayout) (depth width : Int) : Bool :=
  lo.rows.all (fun r => r.valid width) && ((lo.rows.map MemRow.depth).sum == depth)

/-- Property `MemLayout.instance_spec` (lines 413-415):
`':'.join(','.join(b.instance for b in r.brams) for r in self.rows)`. -/
def MemLayout.instance_spec (lo : MemLayout) : Str :=
  List.intercalate [':'] (lo.rows.map fun r => List.intercalate [','] (r.brams.map Bram.instName))

/-- The block-type label chosen in `MemLayout.bmm` (lines 393-403) from
the first block's bit size against the fixed thresholds. -/
def bmmBtype (first_bram : Bram) : Str :=
  let size := first_bram.depth * first_bram.width
  if size ≤ 1024 * 16 then "RAMB16".toList
  else if size ≤ 1024 * 18 then "RAMB18".toList
  else if size ≤ 1024 * 32 then "RAMB32".toList
  else if size ≤ 1024 * 36 then "RAMB36".toList
  else "unknown".toList

/-- Property `MemLayout.bmm` (lines 391-411).  Python indexes
`self.rows[0].brams[0]` and `self.rows[-1]`, so it requires a nonempty
first row within a nonempty row list; the hypotheses record that. -/
def MemLayout.bmm (lo : MemLayout) (h1 : lo.rows ≠ []) (h2 : (lo.rows.head h1).brams ≠ []) : Str :=
  let btype := bmmBtype ((lo.rows.head h1).brams.head h2)
  let blocks := lo.rows.map MemRow.bus_block
  let end_addr := ((lo.rows.getLast h1).stop + 1) * ((lo.rows.head h1).brams.length : Int) - 1
  "ADDRESS_SPACE pb_rom ".toList ++ btype ++ " INDEX_ADDRESSING [0x".toList ++
    pyHex08 0 ++ ":0x".toList ++ pyHex08 end_addr ++ "]\n".toList ++
    List.intercalate ['\n'] blocks ++ "\nEND_ADDRESS_SPACE;".toList

/-- Row/block composition of a layout: the instance names, row by row, in
order.  Two layouts with the same composition place the same instances in
the same rows in the same order. -/
def MemLayout.composition (lo : MemLayout) : List (List Str) :=
  lo.rows.map fun r => r.brams.map Bram.instName

/-! ## The packing driver (function `main`, lines 71-244)

Only the packing logic after instance discovery is modelled: the inputs are
the sorted instance-name list `inames`, the discovered-instance mapping
(`ram_insts`, a total function here — `main` only ever looks up names drawn
from `inames`), the optional `-r` selection-spec string, the required depth
(the mem-file line count) and the stream of interactive answers that
`raw_input` would produce.  File existence checks, subprocess calls and
printing are out of scope. -/

/-- Statement `lo.rows[-1].add_bram(b)`: rebuild the row list with the last row
updated.  Every call site has a nonempty row list (Python would raise
`IndexError` otherwise); on `[]` this returns `[]`. -/
def modifyLast (g : MemRow → MemRow) : List MemRow → List MemRow
  | [] => []
  | [r] => [g r]
  | r :: rest => r :: modifyLast g rest

/-- Statement `lo.rows[-1].add_bram(copy.deepcopy(b))` as a whole-layout update. -/
def MemLayout.addBramLast (lo : MemLayout) (b : Bram) : MemLayout :=
  ⟨modifyLast (fun r => r.add_bram b) lo.rows⟩

/-- Line 128: `spec = [r.split(',') for r in options.ram_inst.split(':')]`. -/
def parseSpec (s : Str) : List (List Str) :=
  (s.splitOn ':').map fun r => r.splitOn ','

/-- Rows built from a selection spec (lines 149-152): for each spec row,
append a fresh `MemRow(0,0)` and add the named blocks to it in order. -/
def buildFromSpec (spec : List (List Str)) (f : Str → Bram) : MemLayout :=
  spec.foldl
    (fun lo r => r.foldl (fun lo b => lo.addBramLast (f b)) (lo.add_row (MemRow.init 0 0 []) true))
    MemLayout.empty

inductive SpecErr where
  | dup
  | notFound (i : Str)
deriving DecidableEq, Repr

/-- The explicit-selection path (lines 128-152): flatten the spec, abort on
a duplicate name (`len(set(spec_flat)) < len(spec_flat)`), abort on the
first name not among the discovered instances, otherwise build the rows.
Both error branches call `show_instances`, which ends in `sys.exit(1)`,
before any row is built. -/
def specPath (spec : List (List Str)) (inames : List Str) (f : Str → Bram) :
    Except SpecErr MemLayout :=
  let flat := spec.flatten
  if flat.dedup.length < flat.length then .error .dup
  else
    match flat.find? (fun i => !(inames.contains i)) with
    | some i => .error (.notFound i)
    | none => .ok (buildFromSpec spec f)

/-- Python 2 `int(sel)` on a string: optional surrounding whitespace, an
optional single sign, then at least one decimal digit; `none` models the
`ValueError` branch. -/
def pyInt? (s : Str) : Option Int :=
  let ws : Char → Bool := fun c => c = ' ' ∨ c = '\t' ∨ c = '\n' ∨ c = '\r'
  let t := ((s.dropWhile ws).reverse.dropWhile ws).reverse
  let core : Str → Option Int := fun ds =>
    if ds ≠ [] ∧ ds.all Char.isDigit then
      some (ds.foldl (fun a c => a * 10 + (c.toNat - 48 : Int)) 0)
    else none
  match t with
  | '-' :: ds => (core ds).map Int.neg
  | '+' :: ds => core ds
  | ds => core ds

/-- Lines 189-192: `sel = int(sel) - 1`, with `sel = -1` on `ValueError`. -/
def selIdx (sel : Str) : Int :=
  match pyInt? sel with
  | some n => n - 1
  | none => -1

/-- Result of the interactive `while` loop (lines 172-206). -/
inductive LoopRes where
  | done (lo : MemLayout)    -- loop condition became false: layout is valid
  | quit                     -- `sys.exit(0)` on a `q` answer (line 187)
  | fatal (msg : Str)        -- `report_error(..., exit=1)`
  | noInput                  -- `raw_input` had no further answers (EOFError)
deriving DecidableEq, Repr

def noBramsMsg : Str := "No BRAMs remaining".toList
def invalidSelMsg : Str := "Invalid selection".toList
def rowWideMsg (w : Int) : Str :=
  "Row is too wide (".toList ++ intRepr w ++ " bits)".toList

/-- The interactive selection loop (lines 172-206), one recursive step per
`raw_input` answer.  `target_width` is the constant 18 (line 168).  Checks
occur in source order: loop condition, exhausted-instance check, quit
check, selection parsing/range check, `add_bram` on the last row, row-too-
wide check, completed-row check (open a fresh row when the row is width-
valid but the layout is not yet depth-valid), then
`inames.remove(inames[sel])` (first occurrence by value). -/
def interactLoop (f : Str → Bram) (td : Int) :
    List Str → MemLayout → List Str → LoopRes
  | [], lo, inames =>
    if lo.valid td 18 = true then .done lo
    else if inames.length = 0 then .fatal noBramsMsg
    else .noInput
  | sel :: rest, lo, inames =>
    if lo.valid td 18 = true then .done lo
    else if inames.length = 0 then .fatal noBramsMsg
    else if sel.map Char.toLower = ['q'] then .quit
    else
      let i := selIdx sel
      if i < 0 ∨ (inames.length : Int) ≤ i then .fatal invalidSelMsg
      else
        let name := inames.getD i.toNat []
        let lo2 := lo.addBramLast (f name)
        let lastRow := lo2.rows.getLastD default
        if lastRow.width > 18 then .fatal (rowWideMsg lastRow.width)
        else
          let lo3 :=
            if lastRow.valid 18 = true ∧ lo2.valid td 18 = false then
              lo2.add_row (MemRow.init 0 0 []) true
            else lo2
          interactLoop f td rest lo3 (inames.erase name)

/-- Overall result of `main` after discovery. `wroteBmm lo` is the sole
path on which the BMM output file is written (lines 228-229), followed by
`sys.exit(0)`; `quit` is `sys.exit(0)` with no file written; `fatal` is
`sys.exit(1)` with no file written. -/
inductive Outcome where
  | wroteBmm (lo : MemLayout)
  | quit
  | fatal (msg : Str)
  | noInput
deriving DecidableEq, Repr

def noRamMsg : Str := "No RAM instances found".toList
def dupMsg : Str := "Duplicate instances in BRAM spec".toList
def nfMsg (i : Str) : Str :=
  "Instance does not exist in netlist (".toList ++ i ++ ")".toList
def mixedMsg : Str := "Mixed width BRAMs not supported in memory layout".toList
def depthMsg : Str := "Memory layout depth does not match required words".toList

def specErrMsg : SpecErr → Str
  | .dup => dupMsg
  | .notFound i => nfMsg i

/-- The post-assembly checks and output (lines 215-229): all block widths
equal (`widths[0] == w for w in widths[1:]`, only when any block exists),
then `lo.rows[-1].end + 1 == target_depth`, then the BMM file is written. -/
def finalize (lo : MemLayout) (td : Int) : Outcome :=
  let widths := (lo.rows.map (fun r => r.brams.map Bram.width)).flatten
  if widths.length > 0 ∧ ¬ (widths.tail.all fun w => widths.headD 0 == w) then .fatal mixedMsg
  else if (lo.rows.getLastD default).stop + 1 ≠ td then .fatal depthMsg
  else .wroteBmm lo

/-- The packing driver (lines 116-229): zero instances is fatal; exactly
one instance auto-packs a single one-block row with no prompting; an
explicit `-r` spec is validated and built with no prompting; otherwise the
interactive loop runs starting from one fresh empty row. -/
def mainFlow (inames : List Str) (f : Str → Bram) (ramInstOpt : Option Str)
    (td : Int) (sels : List Str) : Outcome :=
  if inames.length = 0 then .fatal noRamMsg
  else if inames.length = 1 then
    let lo := (MemLayout.empty.add_row (MemRow.init 0 0 []) true).addBramLast (f (inames.headD []))
    finalize lo td
  else
    match ramInstOpt with
    | some s =>
      match specPath (parseSpec s) inames f with
      | .error e => .fatal (specErrMsg e)
      | .ok lo => finalize lo td
    | none =>
      let lo := MemLayout.empty.add_row (MemRow.init 0 0 []) true
      match interactLoop f td sels lo inames with
      | .done lo => finalize lo td
      | .quit => .quit
      | .fatal m => .fatal m
      | .noInput => .noInput

/-- The layout carried by a BMM-writing outcome, if any. -/
def finalizedLayout : Outcome → Option MemLayout
  | .wroteBmm lo => some lo
  | _ => none

/-! ## Instance discovery (function `find_ram_instances`, lines 266-328)

A Python attribute can hold `None`, an `int` or a `str` here, so the
discovered block's `depth`/`width` are a sum type.  The regular-expression
scanning itself is abstracted: each family branch is modelled as a function
of the already-matched capture groups (`m.group(...)`) and the block the
match applies to. -/

/-- The dynamic value stored in `Bram.depth` / `Bram.width` during
discovery: `None` (unresolved), a Python `int`, or a Python `str`. -/
inductive PyVal where
  | noneV
  | intV (n : Int)
  | strV (s : Str)
deriving DecidableEq, Repr

/-- Holds exactly for a positive Python integer. -/
def PyVal.isPosInt : PyVal → Bool
  | .intV n => 0 < n
  | _ => false

/-- Holds when the attribute has been resolved, i.e. is not `None`. -/
def PyVal.resolved : PyVal → Bool
  | .noneV => false
  | _ => true

/-- A BRAM instance as discovery sees it (`Bram.__init__` with
`depth=None, width=None`, line 249-255). -/
structure XBram where
  instName : Str
  primitive : Str
  loc : Str
  depth : PyVal
  width : PyVal
deriving DecidableEq, Repr

/-- An `inst_re` match (lines 323-326): a fresh instance with unresolved
dimensions. -/
def XBram.mk0 (i p l : Str) : XBram := ⟨i, p, l, .noneV, .noneV⟩

/-- Spartan-3 branch (lines 284-289): on a `PORTA_ATTR::(\d+)X(\d+)` match
the code assigns `depth = m.group(1)` and `width = m.group(2)` — the raw
capture-group strings, with no `int()` conversion. -/
def resolveS3 (b : XBram) (g1 g2 : Str) : XBram :=
  { b with depth := .strV g1, width := .strV g2 }

/-- Expression `2**int(math.log(width, 2))`, the parity-stripping rounding used by the
Spartan-6 and 7-series branches.  `int(math.log(w, 2))` is the floor of the
base-2 logarithm for the block widths in range (Python computes it in
floating point; `Nat.log` is the exact floor). -/
def widthNp (w : Nat) : Int := (2 : Int) ^ Nat.log 2 w

/-- Spartan-6 branch (lines 291-305): `width = int(m.group(1))` (the group
is here pre-converted to the matched number `g1`), the depth chosen by
substring tests on the primitive name, `None` when neither matches. -/
def resolveS6 (b : XBram) (g1 : Nat) : XBram :=
  let width : Int := g1
  let depth : PyVal :=
    if List.IsInfix "16".toList b.primitive then .intV (16384 / widthNp g1)
    else if List.IsInfix "8".toList b.primitive then .intV (8192 / widthNp g1)
    else .noneV
  { b with depth := depth, width := .intV width }

/-- Seven-series branch (lines 307-321), analogous with thresholds 36/18 and
sizes 32768/16384. -/
def resolveV7 (b : XBram) (g1 : Nat) : XBram :=
  let width : Int := g1
  let depth : PyVal :=
    if List.IsInfix "36".toList b.primitive then .intV (32768 / widthNp g1)
    else if List.IsInfix "18".toList b.primitive then .intV (16384 / widthNp g1)
    else .noneV
  { b with depth := depth, width := .intV width }

/-! ## Derived forms used to state the placement property (claim C2) -/

/-- Summed widths of a list of blocks. -/
def sumW (bs : List Bram) : Int := (bs.map Bram.width).sum

/-- The closed form of the bit positions `add_bram` assigns: with `acc` the
summed width of the blocks already in the row, each block gets
`lsb = 18 - (acc + width)`, i.e. blocks stack downward from bit 17. -/
def place (acc : Int) : List Bram → List Bram
  | [] => []
  | b :: rest => { b with lsb := 18 - (acc + b.width) } :: place (acc + b.width) rest

/-- A row built by calling `add_bram` with the given blocks in order,
starting from `MemRow(start, stop)` (fresh, no blocks). -/
def builtRow (start stop : Int) (bs : List Bram) : MemRow :=
  bs.foldl MemRow.add_bram (MemRow.init start stop [])

/-! ## Concrete instances used in witnesses and counterexamples -/

/-- A discovered-instance mapping whose every block has the looked-up name,
depth `d` and width `w` (as `find_ram_instances` produces: the mapping key
is the instance name captured by `inst_re`). -/
def sampleF (d w : Int) : Str → Bram := fun n => ⟨n, [], [], d, w, 0⟩

/-! # Theorems -/

/-- Helper: a `.done` result of the interactive loop carries a layout
satisfying `valid(target_depth, 18)` — the loop only stops successfully
when its `while` condition fails. -/
theorem interactLoop_done_valid (f : Str → Bram) (td : Int) :
    ∀ (sels : List Str) (lo : MemLayout) (inames : List Str) (lo' : MemLayout),
      interactLoop f td sels lo inames = .done lo' → lo'.valid td 18 = true := by
  intro sels
  induction sels with
  | nil =>
    intro lo inames lo' h
    simp only [interactLoop] at h
    split at h
    · simp_all
    · split at h <;> simp_all
  | cons sel rest ih =>
    intro lo inames lo' h
    simp only [interactLoop] at h
    repeat' split at h
    all_goals first
      | exact ih _ _ _ h
      | simp_all

/-- Helper: `finalize` only writes the BMM for the very layout it was
given. -/
theorem finalize_wroteBmm (lo lo' : MemLayout) (td : Int)
    (h : finalize lo td = .wroteBmm lo') : lo' = lo := by
  simp only [finalize] at h
  repeat' split at h
  all_goals simp_all

/-- Claim C1: `MemLayout.valid(depth, width)` holds iff every row is
width-valid — a row being width-valid exactly when its summed block widths
equal `width`, not merely bound it — and the row depths `end - start + 1`
sum to `depth` exactly. -/
theorem c1_layout_valid_iff (lo : MemLayout) (depth width : Int) :
    lo.valid depth width = true ↔
      ((∀ r ∈ lo.rows, (r.brams.map Bram.width).sum = width) ∧
        (lo.rows.map fun r => r.stop - r.start + 1).sum = depth) := by
  unfold MemLayout.valid MemRow.valid MemRow.width MemRow.depth
  simp [List.all_eq_true]

theorem sumW_cons (b : Bram) (bs : List Bram) : sumW (b :: bs) = b.width + sumW bs := by
  simp [sumW]

theorem place_length (acc : Int) (bs : List Bram) : (place acc bs).length = bs.length := by
  induction bs generalizing acc with
  | nil => rfl
  | cons b bs ih => simp [place, ih]

theorem place_append (acc : Int) (xs ys : List Bram) :
    place acc (xs ++ ys) = place acc xs ++ place (acc + sumW xs) ys := by
  induction xs generalizing acc with
  | nil => simp [place, sumW]
  | cons x xs ih =>
    have step : place acc ((x :: xs) ++ ys)
        = { x with lsb := 18 - (acc + x.width) } :: place (acc + x.width) (xs ++ ys) := rfl
    rw [step, ih, sumW_cons]
    rw [show acc + (x.width + sumW xs) = acc + x.width + sumW xs by ring]
    rfl

theorem place_getLast_lsb (acc : Int) (bs : List Bram) (h : bs ≠ []) (d : Bram) :
    ((place acc bs).getLastD d).lsb = 18 - (acc + sumW bs) := by
  induction bs generalizing acc d with
  | nil => exact absurd rfl h
  | cons b bs ih =>
    cases bs with
    | nil => simp [place, sumW]
    | cons b2 bs2 =>
      have step : place acc (b :: b2 :: bs2)
          = { b with lsb := 18 - (acc + b.width) } :: place (acc + b.width) (b2 :: bs2) := rfl
      rw [step, List.getLastD_cons, ih (acc + b.width) (by simp)]
      simp only [sumW_cons]
      ring

theorem place_getD_lsb (acc : Int) (bs : List Bram) (i : Nat) (h : i < bs.length) :
    ((place acc bs).getD i default).lsb = 18 - (acc + sumW (bs.take (i + 1))) := by
  induction bs generalizing acc i with
  | nil => simp at h
  | cons b bs ih =>
    have step : place acc (b :: bs)
        = { b with lsb := 18 - (acc + b.width) } :: place (acc + b.width) bs := rfl
    cases i with
    | zero =>
      rw [step, List.getD_cons_zero, List.take_succ_cons]
      simp [sumW]
    | succ i =>
      rw [step, List.getD_cons_succ, ih (acc + b.width) i (by simpa using h),
        List.take_succ_cons, sumW_cons]
      ring

theorem place_getD_width (acc : Int) (bs : List Bram) (i : Nat) :
    ((place acc bs).getD i default).width = (bs.getD i default).width := by
  induction bs generalizing acc i with
  | nil => simp [place]
  | cons b bs ih =>
    have step : place acc (b :: bs)
        = { b with lsb := 18 - (acc + b.width) } :: place (acc + b.width) bs := rfl
    cases i with
    | zero => rw [step, List.getD_cons_zero, List.getD_cons_zero]
    | succ i => rw [step, List.getD_cons_succ, List.getD_cons_succ, ih]

/-- Helper: folding `add_bram` over a row that already holds a nonempty
`place`-shaped block list extends the `place` shape and leaves the
addresses untouched. -/
theorem foldl_add_bram_inv (bs : List Bram) :
    ∀ (r : MemRow) (cs : List Bram), cs ≠ [] → r.target_width = 18 → r.brams = place 0 cs →
      bs.foldl MemRow.add_bram r = { r with brams := place 0 (cs ++ bs) } := by
  induction bs with
  | nil => intro r cs _ _ hb; simp [← hb]
  | cons b bs ih =>
    intro r cs hc htw hb
    rw [List.foldl_cons]
    have hne : r.brams ≠ [] := by
      rw [hb]; cases cs with
      | nil => exact absurd rfl hc
      | cons c cs => simp [place]
    have hlast : (r.brams.getLastD default).lsb = 18 - sumW cs := by
      rw [hb, place_getLast_lsb 0 cs hc]; ring
    have hadd : r.add_bram b
        = { r with brams := place 0 cs ++ [{ b with lsb := 18 - sumW cs - b.width }] } := by
      unfold MemRow.add_bram
      rw [if_pos hne, hlast, hb]
    have hshape : place 0 cs ++ [{ b with lsb := 18 - sumW cs - b.width }]
        = place 0 (cs ++ [b]) := by
      rw [place_append]
      congr 2
      simp [place]
      ring
    rw [hadd]
    have := ih { r with brams := place 0 cs ++ [{ b with lsb := 18 - sumW cs - b.width }] }
      (cs ++ [b]) (by simp) htw (by simp [hshape])
    rw [this]
    simp [hshape]

/-- Helper: the row built from a fresh `MemRow(s, e)` by adding `b :: bs`
has `stop = s + b.depth - 1` (set on the first addition) and its blocks in
the `place` closed form. -/
theorem builtRow_cons (s e : Int) (b : Bram) (bs : List Bram) :
    builtRow s e (b :: bs) = ⟨s, s + b.depth - 1, place 0 (b :: bs), 18⟩ := by
  unfold builtRow
  rw [List.foldl_cons]
  have h1 : (MemRow.init s e []).add_bram b
      = ⟨s, s + b.depth - 1, place 0 [b], 18⟩ := by
    unfold MemRow.init assignR MemRow.add_bram
    simp [place]
  rw [h1]
  have := foldl_add_bram_inv bs ⟨s, s + b.depth - 1, place 0 [b], 18⟩ [b]
    (by simp) rfl rfl
  rw [this]
  have : ([b] ++ bs) = b :: bs := rfl
  rw [this]

/-- Claim C2: in a row with `target_width` 18 built by `add_bram` from
blocks of widths `w1..wn` in order, the i-th block's lsb is
`18 - (w1 + ... + wi)`, its msb is `lsb + width - 1`, the first block's
msb sits at bit 17, and the first addition set `stop` (the source's `end`)
to `start + depth_of_first_block - 1`. -/
theorem c2_placement (s e : Int) (bs : List Bram) :
    (∀ i : Nat, i < bs.length →
        ((builtRow s e bs).brams.getD i default).lsb = 18 - sumW (bs.take (i + 1)) ∧
        ((builtRow s e bs).brams.getD i default).msb
          = ((builtRow s e bs).brams.getD i default).lsb
            + ((builtRow s e bs).brams.getD i default).width - 1) ∧
    (∀ _ : bs ≠ [],
        ((builtRow s e bs).brams.headD default).msb = 17 ∧
        (builtRow s e bs).stop = s + (bs.headD default).depth - 1) := by
  cases bs with
  | nil =>
    exact ⟨fun i hi => absurd hi (by simp), fun h => absurd rfl h⟩
  | cons b bs =>
    rw [builtRow_cons]
    refine ⟨?_, ?_⟩
    · intro i hi
      refine ⟨?_, rfl⟩
      have := place_getD_lsb 0 (b :: bs) i hi
      rw [this]; ring
    · intro _
      refine ⟨?_, rfl⟩
      show ({ b with lsb := 18 - (0 + b.width) } : Bram).msb = 17
      unfold Bram.msb
      simp

/-- Witness for claim C2: two 9-bit-wide, 1024-deep blocks added in order
occupy lanes `[17:9]` and `[8:0]` and the row spans addresses 0..1023. -/
theorem c2_placement_witness :
    ((builtRow 0 0 [⟨['a'], [], [], 1024, 9, 0⟩, ⟨['b'], [], [], 1024, 9, 0⟩]).brams.getD
        1 default).lsb
      = 18 - sumW ([⟨['a'], [], [], 1024, 9, 0⟩, ⟨['b'], [], [], 1024, 9, 0⟩].take 2) ∧
    (builtRow 0 0 [⟨['a'], [], [], 1024, 9, 0⟩, ⟨['b'], [], [], 1024, 9, 0⟩]).stop
      = 0 + (([⟨['a'], [], [], 1024, 9, 0⟩, ⟨['b'], [], [], 1024, 9, 0⟩] : List Bram).headD
          default).depth - 1 :=
  ⟨((c2_placement 0 0 [⟨['a'], [], [], 1024, 9, 0⟩, ⟨['b'], [], [], 1024, 9, 0⟩]).1 1
      (by decide)).1,
    ((c2_placement 0 0 [⟨['a'], [], [], 1024, 9, 0⟩, ⟨['b'], [], [], 1024, 9, 0⟩]).2
      (by decide)).2⟩

/-- Claim C8 (code bug): the Spartan-3 discovery branch stores the raw
regular-expression capture groups — Python strings — into `depth` and
`width`, so a Spartan-3 block resolved from `PORTA_ATTR::1024X18` has
resolved dimensions that are not positive integers (they are the strings
"1024" and "18"), contradicting the documented invariant; any later
arithmetic on them (e.g. `start + b.depth - 1` in `MemRow.add_bram`) would
raise a `TypeError`. -/
theorem c8_s3_resolves_to_strings :
    (resolveS3 (XBram.mk0 ['m'] "RAMB16".toList []) "1024".toList "18".toList).depth.resolved
        = true ∧
    (resolveS3 (XBram.mk0 ['m'] "RAMB16".toList []) "1024".toList "18".toList).width.resolved
        = true ∧
    (resolveS3 (XBram.mk0 ['m'] "RAMB16".toList []) "1024".toList "18".toList).depth.isPosInt
        = false ∧
    (resolveS3 (XBram.mk0 ['m'] "RAMB16".toList []) "1024".toList "18".toList).width.isPosInt
        = false ∧
    (resolveS3 (XBram.mk0 ['m'] "RAMB16".toList []) "1024".toList "18".toList).depth
        = .strV "1024".toList := by
  decide

/-- Counterexample to claim C3: the single-instance auto-pack path
finalizes (reaches BMM generation for) a layout whose only row has width
9 ≠ 18 — the driver's per-row width validity is only enforced on the
interactive path, while the auto-pack path checks only uniform widths and
the final end address. -/
theorem c3_counterexample :
    (finalizedLayout (mainFlow [['a']] (sampleF 512 9) none 512 [])).map
        (fun lo => lo.rows.all fun r => r.valid 18) = some false := by
  decide

/-- Claim C3 (amended): every layout the packing driver finalizes via the
interactive path satisfies `valid(target_depth, 18)`, hence each of its
rows has summed block width exactly 18; the auto-pack and selection-spec
paths do not guarantee this. -/
theorem c3_interactive_rows_valid (inames : List Str) (f : Str → Bram) (td : Int)
    (sels : List Str) (lo : MemLayout) (h2 : 2 ≤ inames.length)
    (h : mainFlow inames f none td sels = .wroteBmm lo) :
    lo.valid td 18 = true ∧ ∀ r ∈ lo.rows, r.valid 18 = true := by
  simp only [mainFlow] at h
  rw [if_neg (by omega), if_neg (by omega)] at h
  rcases hres : interactLoop f td sels (MemLayout.empty.add_row (MemRow.init 0 0 []) true) inames
    with loD | _ | m | _ <;> rw [hres] at h <;> simp only [] at h
  · cases finalize_wroteBmm _ _ _ h
    have hv := interactLoop_done_valid f td sels _ inames _ hres
    refine ⟨hv, ?_⟩
    have := (c1_layout_valid_iff _ td 18).mp hv
    intro r hr
    unfold MemRow.valid MemRow.width
    simp [this.1 r hr]
  · exact absurd h (by simp)
  · exact absurd h (by simp)
  · exact absurd h (by simp)

/-- Witness for claim C3 (amended): a concrete interactive run (two 18-bit
instances selected in turn) finalizes, and the finalized layout is
depth/width valid. -/
theorem c3_interactive_rows_valid_witness :
    (MemLayout.mk [⟨0, 511, [⟨['a'], [], [], 512, 18, 0⟩], 18⟩,
        ⟨512, 1023, [⟨['b'], [], [], 512, 18, 0⟩], 18⟩]).valid 1024 18 = true :=
  (c3_interactive_rows_valid [['a'], ['b']] (sampleF 512 18) 1024 ["1".toList, "1".toList]
      (MemLayout.mk [⟨0, 511, [⟨['a'], [], [], 512, 18, 0⟩], 18⟩,
        ⟨512, 1023, [⟨['b'], [], [], 512, 18, 0⟩], 18⟩]) (by decide) (by decide)).1

/-- Helper: the layout the driver starts the interactive loop from (one
fresh empty row) is never valid, since the empty row has width 0 ≠ 18;
the loop body therefore always runs at least once. -/
theorem initial_layout_invalid (td : Int) :
    (MemLayout.empty.add_row (MemRow.init 0 0 []) true).valid td 18 = false := rfl

/-- Claim C7: in the interactive loop, immediately after the chosen block
is appended to the current row, a summed row width exceeding 18 aborts
fatally with the row-too-wide diagnostic; and `add_bram` itself performs
no width check — it appends the block (preserving its identity, width and
depth) unconditionally, so the overflow check belongs entirely to the
caller. -/
theorem c7_row_too_wide (f : Str → Bram) (td : Int) (lo : MemLayout) (inames : List Str)
    (sel : Str) (rest : List Str)
    (hv : lo.valid td 18 = false) (hne : ¬ inames.length = 0)
    (hq : ¬ sel.map Char.toLower = ['q'])
    (hok : ¬ (selIdx sel < 0 ∨ (inames.length : Int) ≤ selIdx sel))
    (hw : ((lo.addBramLast (f (inames.getD (selIdx sel).toNat []))).rows.getLastD
        default).width > 18) :
    interactLoop f td (sel :: rest) lo inames
      = .fatal (rowWideMsg ((lo.addBramLast (f (inames.getD (selIdx sel).toNat []))).rows.getLastD
          default).width) ∧
    ∀ (r : MemRow) (b : Bram), ∃ b' : Bram, (r.add_bram b).brams = r.brams ++ [b']
      ∧ b'.instName = b.instName ∧ b'.width = b.width ∧ b'.depth = b.depth := by
  constructor
  · simp only [interactLoop]
    rw [if_neg (by simp [hv]), if_neg hne, if_neg hq, if_neg hok, if_pos hw]
  · intro r b
    unfold MemRow.add_bram
    by_cases h : r.brams ≠ []
    · rw [if_pos h]
      exact ⟨{ b with lsb := (r.brams.getLastD default).lsb - b.width }, rfl, rfl, rfl, rfl⟩
    · rw [if_neg h]
      simp only [ne_eq, not_not] at h
      refine ⟨{ b with lsb := r.target_width - b.width }, ?_, rfl, rfl, rfl⟩
      rw [h]
      rfl

/-- Witness for claim C7 (Scenario E): a row already holding a 9-bit block
receives an 18-bit block; the loop aborts with the 27-bit diagnostic. -/
theorem c7_row_too_wide_witness :
    interactLoop (sampleF 1024 18) 1024 ["1".toList]
        (MemLayout.mk [⟨0, 1023, [⟨['a'], [], [], 1024, 9, 9⟩], 18⟩]) [['w']]
      = .fatal (rowWideMsg 27) :=
  (c7_row_too_wide (sampleF 1024 18) 1024
      (MemLayout.mk [⟨0, 1023, [⟨['a'], [], [], 1024, 9, 9⟩], 18⟩]) [['w']]
      "1".toList [] (by decide) (by decide) (by decide) (by decide) (by decide)).1

/-- Claim C9: a `q` or `Q` answer at the selection prompt (reached with
the layout not yet valid and instances remaining) makes the loop return
`quit`, which is `sys.exit(0)` — status 0, before the BMM file write, so
no output file is produced — regardless of the layout state, i.e. of how
many blocks were already placed; and a whole driver run on the interactive
path whose first answer is that `q` ends in `quit` with no finalized
layout. -/
theorem c9_quit (f : Str → Bram) (td : Int) (lo : MemLayout) (inames : List Str)
    (sel : Str) (rest : List Str) (inames2 : List Str) (f2 : Str → Bram) (td2 : Int)
    (rest2 : List Str)
    (hv : lo.valid td 18 = false) (hne : ¬ inames.length = 0)
    (hq : sel.map Char.toLower = ['q'])
    (h2 : 2 ≤ inames2.length) :
    interactLoop f td (sel :: rest) lo inames = .quit ∧
    mainFlow inames2 f2 none td2 (sel :: rest2) = .quit ∧
    finalizedLayout (mainFlow inames2 f2 none td2 (sel :: rest2)) = none := by
  have hloop : ∀ (g : Str → Bram) (d : Int) (l : MemLayout) (ns rs : List Str),
      l.valid d 18 = false → ¬ ns.length = 0 →
      interactLoop g d (sel :: rs) l ns = .quit := by
    intro g d l ns rs hvl hnl
    simp only [interactLoop]
    rw [if_neg (by simp [hvl]), if_neg hnl, if_pos hq]
  have hmain : mainFlow inames2 f2 none td2 (sel :: rest2) = .quit := by
    simp only [mainFlow]
    rw [if_neg (by omega), if_neg (by omega)]
    rw [hloop f2 td2 _ inames2 rest2 (initial_layout_invalid td2) (by omega)]
  exact ⟨hloop f td lo inames rest hv hne, hmain, by rw [hmain]; rfl⟩

/-- Witness for claim C9 (Scenario D flavor): a capital `Q` as the first
answer exits the loop and the driver cleanly. -/
theorem c9_quit_witness :
    interactLoop (sampleF 512 18) 1024 ["Q".toList]
        (MemLayout.mk [⟨0, 511, [⟨['a'], [], [], 512, 18, 0⟩], 18⟩,
          ⟨512, 512, [], 18⟩]) [['b'], ['c']] = .quit ∧
    mainFlow [['b'], ['c']] (sampleF 512 18) none 1024 ["Q".toList] = .quit ∧
    finalizedLayout (mainFlow [['b'], ['c']] (sampleF 512 18) none 1024 ["Q".toList]) = none :=
  c9_quit (sampleF 512 18) 1024
    (MemLayout.mk [⟨0, 511, [⟨['a'], [], [], 512, 18, 0⟩], 18⟩, ⟨512, 512, [], 18⟩])
    [['b'], ['c']] "Q".toList [] [['b'], ['c']] (sampleF 512 18) 1024 []
    (by decide) (by decide) (by decide) (by decide)

/-- Claim C10: at the selection prompt, any answer other than `q`/`Q` that
`int()` does not accept, or whose value `n` lies outside `1 ≤ n ≤ `number
of remaining instances, makes the loop abort at once with the
Invalid-selection diagnostic (exit status 1), for every possible list of
further answers — the loop never re-prompts after an invalid entry.
`pyInt?` models Python `int()` acceptance (optional surrounding
whitespace and sign, then decimal digits). -/
theorem c10_invalid_selection (f : Str → Bram) (td : Int) (lo : MemLayout) (inames : List Str)
    (sel : Str) (rest : List Str)
    (hv : lo.valid td 18 = false) (hne : ¬ inames.length = 0)
    (hq : ¬ sel.map Char.toLower = ['q'])
    (hbad : pyInt? sel = none ∨
      ∃ n : Int, pyInt? sel = some n ∧ (n < 1 ∨ (inames.length : Int) < n)) :
    interactLoop f td (sel :: rest) lo inames = .fatal invalidSelMsg := by
  have hcond : selIdx sel < 0 ∨ (inames.length : Int) ≤ selIdx sel := by
    rcases hbad with h | ⟨n, hn, hr⟩
    · left
      simp [selIdx, h]
    · rcases hr with hr | hr
      · left
        simp only [selIdx, hn]
        omega
      · right
        simp only [selIdx, hn]
        omega
  simp only [interactLoop]
  rw [if_neg (by simp [hv]), if_neg hne, if_neg hq, if_pos hcond]

/-- Witness for claim C10: the non-numeric answer `abc` aborts even though
further answers were available. -/
theorem c10_invalid_selection_witness :
    interactLoop (sampleF 512 18) 1024 ["abc".toList, "1".toList]
        (MemLayout.mk [⟨0, 0, [], 18⟩]) [['a'], ['b']] = .fatal invalidSelMsg :=
  c10_invalid_selection (sampleF 512 18) 1024 (MemLayout.mk [⟨0, 0, [], 18⟩])
    [['a'], ['b']] "abc".toList ["1".toList]
    (by decide) (by decide) (by decide) (Or.inl (by decide))

/-- Helper: a list with a repeated element strictly shrinks under `dedup`
(Python: `len(set(l)) < len(l)`). -/
theorem dedup_length_lt_of_not_nodup {α : Type} [DecidableEq α] (l : List α)
    (h : ¬ l.Nodup) : l.dedup.length < l.length := by
  rcases Nat.lt_or_ge l.dedup.length l.length with hlt | hge
  · exact hlt
  · exfalso
    have hsub := List.dedup_sublist l
    have hle := hsub.length_le
    have : l.dedup = l := hsub.eq_of_length (Nat.le_antisymm hle hge)
    exact h (this ▸ l.nodup_dedup)

/-- Helper: `dedup` keeps a duplicate-free list intact. -/
theorem not_dedup_length_lt_of_nodup {α : Type} [DecidableEq α] (l : List α)
    (h : l.Nodup) : ¬ l.dedup.length < l.length := by
  rw [List.dedup_eq_self.mpr h]
  exact Nat.lt_irrefl _

theorem modifyLast_append_singleton (g : MemRow → MemRow) (rs : List MemRow) (r : MemRow) :
    modifyLast g (rs ++ [r]) = rs ++ [g r] := by
  induction rs with
  | nil => rfl
  | cons x rs ih =>
    cases rs with
    | nil => rfl
    | cons y rs => simpa [modifyLast] using ih

/-- Helper: `add_bram` appends exactly one block carrying the given
instance name. -/
theorem add_bram_names (r : MemRow) (b : Bram) :
    (r.add_bram b).brams.map Bram.instName = r.brams.map Bram.instName ++ [b.instName] := by
  unfold MemRow.add_bram
  by_cases h : r.brams ≠ []
  · rw [if_pos h]
    simp
  · rw [if_neg h]
    simp only [ne_eq, not_not] at h
    simp [h]

/-- Helper: `add_row` appends one row holding the same blocks (only the
address range is translated). -/
theorem add_row_rows (lo : MemLayout) (row : MemRow) (rel : Bool) :
    ∃ row', (lo.add_row row rel).rows = lo.rows ++ [row'] ∧ row'.brams = row.brams := by
  unfold MemLayout.add_row
  by_cases h : rel ∧ lo.rows ≠ []
  · rw [if_pos h]
    exact ⟨_, rfl, rfl⟩
  · rw [if_neg h]
    exact ⟨row, rfl, rfl⟩

/-- Helper: filling the last row appends the selected names to it and
leaves the other rows alone. -/
theorem rowFill_names (f : Str → Bram) (names : List Str) :
    ∀ (rs : List MemRow) (r : MemRow),
      (names.foldl (fun lo b => lo.addBramLast (f b)) (MemLayout.mk (rs ++ [r]))).rows
        = rs ++ [names.foldl (fun r b => r.add_bram (f b)) r] := by
  induction names with
  | nil => intro rs r; rfl
  | cons n names ih =>
    intro rs r
    rw [List.foldl_cons, List.foldl_cons]
    have : (MemLayout.mk (rs ++ [r])).addBramLast (f n)
        = ⟨rs ++ [r.add_bram (f n)]⟩ := by
      unfold MemLayout.addBramLast
      rw [modifyLast_append_singleton]
    rw [this, ih]

/-- Helper: block names added to one row by a spec row. -/
theorem rowFold_names (f : Str → Bram) (names : List Str) :
    ∀ r : MemRow,
      (names.foldl (fun r b => r.add_bram (f b)) r).brams.map Bram.instName
        = r.brams.map Bram.instName ++ names.map fun n => (f n).instName := by
  induction names with
  | nil => intro r; simp
  | cons n names ih =>
    intro r
    rw [List.foldl_cons, ih, add_bram_names]
    simp

/-- Helper: the layout built from a selection spec has exactly the spec's
row/block composition (through the mapping's names). -/
theorem buildFromSpec_composition (f : Str → Bram) (spec : List (List Str)) :
    (buildFromSpec spec f).composition = spec.map fun r => r.map fun n => (f n).instName := by
  suffices h : ∀ lo : MemLayout,
      (spec.foldl
        (fun lo r => r.foldl (fun lo b => lo.addBramLast (f b))
          (lo.add_row (MemRow.init 0 0 []) true)) lo).composition
      = lo.composition ++ spec.map (fun r => r.map fun n => (f n).instName) by
    have := h MemLayout.empty
    simpa [buildFromSpec, MemLayout.composition, MemLayout.empty] using this
  induction spec with
  | nil => intro lo; simp
  | cons r spec ih =>
    intro lo
    rw [List.foldl_cons]
    obtain ⟨row', hrows, hbr⟩ := add_row_rows lo (MemRow.init 0 0 []) true
    have hfill := rowFill_names f r lo.rows row'
    have hinit : (MemRow.init 0 0 []).brams = [] := rfl
    have hcomp : (r.foldl (fun lo b => lo.addBramLast (f b))
        (lo.add_row (MemRow.init 0 0 []) true)).composition
        = lo.composition ++ [r.map fun n => (f n).instName] := by
      have : lo.add_row (MemRow.init 0 0 []) true = ⟨lo.rows ++ [row']⟩ := by
        cases hlo : lo.add_row (MemRow.init 0 0 []) true
        simp_all
      rw [this]
      unfold MemLayout.composition
      rw [hfill]
      simp only [List.map_append, List.map_cons, List.map_nil]
      rw [rowFold_names]
      simp [hbr, hinit]
    rw [ih, hcomp]
    simp

/-- Counterexample to claim C6: the spec branch is an elif behind the
single-instance auto-pack branch (lines 123-127), so with exactly one
discovered instance a supplied selection spec is silently ignored — here
the spec `b,b` both duplicates a name and names an instance absent from
discovery, yet the process does not abort: it auto-packs the one
discovered instance and writes the BMM, and the built rows are not the
spec's rows. -/
theorem c6_counterexample :
    mainFlow [['a']] (sampleF 512 18) (some "b,b".toList) 512 []
      = .wroteBmm (MemLayout.mk [⟨0, 511, [⟨['a'], [], [], 512, 18, 0⟩], 18⟩]) ∧
    ¬ (parseSpec "b,b".toList).flatten.Nodup ∧
    (∃ i ∈ (parseSpec "b,b".toList).flatten, i ∉ ([['a']] : List Str)) ∧
    (MemLayout.mk [⟨0, 511, [⟨['a'], [], [], 512, 18, 0⟩], 18⟩]).composition
      ≠ parseSpec "b,b".toList :=
  ⟨rfl, by decide, ⟨['b'], by decide, by decide⟩, by decide⟩

/-- Claim C6 (amended): the claim holds on every run in which the spec
branch is actually taken, i.e. when at least two instances were
discovered (with exactly one discovered instance, `main` auto-packs it
and ignores the supplied spec entirely — see the counterexample).  Then a
duplicated instance name aborts fatally (exit 1) before any row is
built; a named instance missing from the discovered mapping aborts
fatally (exit 1, naming the first missing instance) before any row is
built; otherwise the rows are built exactly as the spec lists them —
same names, same rows, same order — and the run consumes no interactive
input at all (the outcome is independent of the answer stream). -/
theorem c6_spec_selection (inames : List Str) (f : Str → Bram) (s : Str) (td : Int)
    (sels : List Str) (h2 : 2 ≤ inames.length) (hf : ∀ n, (f n).instName = n) :
    (¬ (parseSpec s).flatten.Nodup →
        mainFlow inames f (some s) td sels = .fatal dupMsg) ∧
    ((parseSpec s).flatten.Nodup →
      (∃ i ∈ (parseSpec s).flatten, i ∉ inames) →
        ∃ j, mainFlow inames f (some s) td sels = .fatal (nfMsg j) ∧ j ∉ inames) ∧
    ((parseSpec s).flatten.Nodup → (∀ i ∈ (parseSpec s).flatten, i ∈ inames) →
        specPath (parseSpec s) inames f = .ok (buildFromSpec (parseSpec s) f) ∧
        (buildFromSpec (parseSpec s) f).composition = parseSpec s ∧
        mainFlow inames f (some s) td sels = mainFlow inames f (some s) td []) := by
  have hmain : ∀ sels', mainFlow inames f (some s) td sels'
      = (match specPath (parseSpec s) inames f with
        | .error e => Outcome.fatal (specErrMsg e)
        | .ok lo => finalize lo td) := by
    intro sels'
    simp only [mainFlow]
    rw [if_neg (by omega), if_neg (by omega)]
  refine ⟨?_, ?_, ?_⟩
  · intro hdup
    rw [hmain sels]
    unfold specPath
    rw [if_pos (dedup_length_lt_of_not_nodup _ hdup)]
    rfl
  · intro hnd ⟨i, hi, hni⟩
    have hsome : ((parseSpec s).flatten.find? fun n => !(inames.contains n)).isSome := by
      rw [List.find?_isSome]
      exact ⟨i, hi, by simpa using hni⟩
    obtain ⟨j, hj⟩ := Option.isSome_iff_exists.mp hsome
    refine ⟨j, ?_, ?_⟩
    · rw [hmain sels]
      unfold specPath
      rw [if_neg (not_dedup_length_lt_of_nodup _ hnd), hj]
      rfl
    · have := List.find?_some hj
      simpa using this
  · intro hnd hall
    have hok : specPath (parseSpec s) inames f = .ok (buildFromSpec (parseSpec s) f) := by
      unfold specPath
      rw [if_neg (not_dedup_length_lt_of_nodup _ hnd)]
      have hnone : ((parseSpec s).flatten.find? fun n => !(inames.contains n)) = none := by
        rw [List.find?_eq_none]
        intro x hx
        simpa using hall x hx
      rw [hnone]
    refine ⟨hok, ?_, by rw [hmain sels, hmain []]⟩
    rw [buildFromSpec_composition]
    have : ∀ r ∈ parseSpec s, (r.map fun n => (f n).instName) = r := by
      intro r _
      simp [hf]
    calc ((parseSpec s).map fun r => r.map fun n => (f n).instName)
        = (parseSpec s).map id := List.map_congr_left fun r hr => this r hr
      _ = parseSpec s := List.map_id _

/-- Witness for claim C6 (amended, Scenario C): with two discovered
instances, the spec `a,a` (a duplicated name) aborts with the duplicate
diagnostic. -/
theorem c6_spec_selection_witness :
    mainFlow [['a'], ['b']] (sampleF 512 18) (some "a,a".toList) 1024 [] = .fatal dupMsg :=
  (c6_spec_selection [['a'], ['b']] (sampleF 512 18) "a,a".toList 1024 []
    (by decide) (fun n => rfl)).1 (by decide)

/-- Claim C4: the BMM text opens with the ADDRESS_SPACE header whose
inclusive hex range starts at address 0 and ends at
`(last_row.end + 1) * (number of blocks in the first row) - 1` — the
documented data2mem word-counting quirk — before the bus blocks. -/
theorem c4_bmm_header (lo : MemLayout) (h1 : lo.rows ≠ [])
    (h2 : (lo.rows.head h1).brams ≠ []) :
    lo.bmm h1 h2
      = "ADDRESS_SPACE pb_rom ".toList ++ bmmBtype ((lo.rows.head h1).brams.head h2) ++
        " INDEX_ADDRESSING [0x".toList ++ pyHex08 0 ++ ":0x".toList ++
        pyHex08 (((lo.rows.getLast h1).stop + 1) * ((lo.rows.head h1).brams.length : Int) - 1) ++
        "]\n".toList ++
        (List.intercalate ['\n'] (lo.rows.map MemRow.bus_block) ++
          "\nEND_ADDRESS_SPACE;".toList) ∧
    pyHex08 0 = "00000000".toList := by
  refine ⟨?_, by decide⟩
  unfold MemLayout.bmm
  simp only [List.append_assoc]

/-- Witness for claim C4: a one-row, two-block layout with end address
1023; the header range is [0x00000000:0x000007FF], 0x7FF being
(1023 + 1) * 2 - 1 = 2047. -/
theorem c4_bmm_header_witness :
    (MemLayout.mk [⟨0, 1023, [⟨['a'], [], ['L'], 1024, 9, 9⟩,
          ⟨['b'], [], ['L'], 1024, 9, 0⟩], 18⟩]).bmm (by decide) (by decide)
      = "ADDRESS_SPACE pb_rom ".toList ++
        bmmBtype (((MemLayout.mk [⟨0, 1023, [⟨['a'], [], ['L'], 1024, 9, 9⟩,
          ⟨['b'], [], ['L'], 1024, 9, 0⟩], 18⟩]).rows.head (by decide)).brams.head (by decide)) ++
        " INDEX_ADDRESSING [0x".toList ++ pyHex08 0 ++ ":0x".toList ++ pyHex08 2047 ++
        "]\n".toList ++
        (List.intercalate ['\n'] ((MemLayout.mk [⟨0, 1023, [⟨['a'], [], ['L'], 1024, 9, 9⟩,
            ⟨['b'], [], ['L'], 1024, 9, 0⟩], 18⟩]).rows.map MemRow.bus_block) ++
          "\nEND_ADDRESS_SPACE;".toList) ∧
    pyHex08 0 = "00000000".toList :=
  c4_bmm_header (MemLayout.mk [⟨0, 1023, [⟨['a'], [], ['L'], 1024, 9, 9⟩,
    ⟨['b'], [], ['L'], 1024, 9, 0⟩], 18⟩]) (by decide) (by decide)

/-- Helper: an element of an intercalation is the separator or comes from
one of the interleaved lists. -/
theorem mem_intercalate_single {α : Type} (sep x : α) (ls : List (List α))
    (hx : x ∈ List.intercalate [sep] ls) : x = sep ∨ ∃ l ∈ ls, x ∈ l := by
  induction ls with
  | nil => simp [List.intercalate] at hx
  | cons l ls ih =>
    cases ls with
    | nil =>
      rw [show List.intercalate [sep] [l] = l by simp [List.intercalate]] at hx
      exact Or.inr ⟨l, by simp, hx⟩
    | cons l2 ls2 =>
      rw [show List.intercalate [sep] (l :: l2 :: ls2)
          = l ++ [sep] ++ List.intercalate [sep] (l2 :: ls2) by
        simp [List.intercalate, List.intersperse]] at hx
      rcases List.mem_append.mp hx with h | h
      · rcases List.mem_append.mp h with h | h
        · exact Or.inr ⟨l, by simp, h⟩
        · exact Or.inl (by simpa using h)
      · rcases ih h with h | ⟨l', hl', hxl'⟩
        · exact Or.inl h
        · exact Or.inr ⟨l', by simp [hl'], hxl'⟩

/-- Counterexample to claim C5: an instance whose discovered name contains
the `,` delimiter (`inst_re` admits any quote-free characters) defeats the
round-trip — the driver finalizes a layout for it, but re-parsing its
`instance_spec` splits the name in two, so rebuilding aborts with a
not-found error instead of reconstructing the same composition. -/
theorem c5_counterexample :
    finalizedLayout (mainFlow [['x', ',', 'y']] (sampleF 1024 18) none 1024 [])
      = some (MemLayout.mk [⟨0, 1023, [⟨['x', ',', 'y'], [], [], 1024, 18, 0⟩], 18⟩]) ∧
    parseSpec (MemLayout.mk
        [⟨0, 1023, [⟨['x', ',', 'y'], [], [], 1024, 18, 0⟩], 18⟩]).instance_spec
      ≠ (MemLayout.mk [⟨0, 1023, [⟨['x', ',', 'y'], [], [], 1024, 18, 0⟩], 18⟩]).composition ∧
    specPath (parseSpec (MemLayout.mk
        [⟨0, 1023, [⟨['x', ',', 'y'], [], [], 1024, 18, 0⟩], 18⟩]).instance_spec)
        [['x', ',', 'y']] (sampleF 1024 18)
      = .error (.notFound ['x']) :=
  ⟨rfl, by decide, rfl⟩

/-- Claim C5 (amended): the `instance_spec` round-trip holds for every
layout with at least one row, no empty row, and instance names that are
duplicate-free, all discovered, and free of the `:` and `,` delimiters:
re-parsing the rendered spec gives back exactly the layout's row/block
composition, the selection-spec path accepts it, and rebuilding against
the same (name-consistent) mapping reconstructs the identical
composition.  (Without the delimiter-freedom proviso the claim fails, see
the counterexample.) -/
theorem c5_roundtrip (lo : MemLayout) (inames : List Str) (f : Str → Bram)
    (hf : ∀ n, (f n).instName = n)
    (hrows : lo.rows ≠ [])
    (hrow : ∀ r ∈ lo.rows, r.brams ≠ [])
    (hchars : ∀ n ∈ lo.composition.flatten, ',' ∉ n ∧ ':' ∉ n)
    (hnodup : lo.composition.flatten.Nodup)
    (hin : ∀ n ∈ lo.composition.flatten, n ∈ inames) :
    parseSpec lo.instance_spec = lo.composition ∧
    specPath (parseSpec lo.instance_spec) inames f = .ok (buildFromSpec lo.composition f) ∧
    (buildFromSpec lo.composition f).composition = lo.composition := by
  have hmemname : ∀ r ∈ lo.rows, ∀ n ∈ r.brams.map Bram.instName,
      n ∈ lo.composition.flatten := by
    intro r hr n hn
    rw [List.mem_flatten]
    exact ⟨r.brams.map Bram.instName,
      List.mem_map_of_mem (fun r => r.brams.map Bram.instName) hr, hn⟩
  have hsplit1 : List.splitOn ':' lo.instance_spec
      = lo.rows.map fun r => List.intercalate [','] (r.brams.map Bram.instName) := by
    unfold MemLayout.instance_spec
    apply List.splitOn_intercalate
    · intro l hl
      rw [List.mem_map] at hl
      obtain ⟨r, hr, rfl⟩ := hl
      intro hcolon
      rcases mem_intercalate_single ',' ':' _ hcolon with h | ⟨n, hn, hcn⟩
      · exact absurd h (by decide)
      · exact (hchars n (hmemname r hr n hn)).2 hcn
    · simpa using hrows
  have hsplit2 : ∀ r ∈ lo.rows,
      List.splitOn ',' (List.intercalate [','] (r.brams.map Bram.instName))
        = r.brams.map Bram.instName := by
    intro r hr
    apply List.splitOn_intercalate
    · intro n hn
      exact fun hc => (hchars n (hmemname r hr n hn)).1 hc
    · simpa using hrow r hr
  have hparse : parseSpec lo.instance_spec = lo.composition := by
    unfold parseSpec
    rw [hsplit1, List.map_map]
    unfold MemLayout.composition
    apply List.map_congr_left
    intro r hr
    simpa using hsplit2 r hr
  have hflat : (parseSpec lo.instance_spec).flatten = lo.composition.flatten := by
    rw [hparse]
  refine ⟨hparse, ?_, ?_⟩
  · rw [hparse]
    unfold specPath
    rw [if_neg (not_dedup_length_lt_of_nodup _ hnodup)]
    have hnone : (lo.composition.flatten.find? fun n => !(inames.contains n)) = none := by
      rw [List.find?_eq_none]
      intro x hx
      simpa using hin x hx
    rw [hnone]
  · rw [buildFromSpec_composition]
    unfold MemLayout.composition
    rw [List.map_map]
    apply List.map_congr_left
    intro r _
    simp [hf]

/-- Witness for claim C5 (amended): a two-row layout with delimiter-free
names a, b, c round-trips to its own composition. -/
theorem c5_roundtrip_witness :
    parseSpec (MemLayout.mk [⟨0, 511, [⟨['a'], [], [], 512, 9, 9⟩, ⟨['b'], [], [], 512, 9, 0⟩], 18⟩,
        ⟨512, 1023, [⟨['c'], [], [], 512, 18, 0⟩], 18⟩]).instance_spec
      = (MemLayout.mk [⟨0, 511, [⟨['a'], [], [], 512, 9, 9⟩, ⟨['b'], [], [], 512, 9, 0⟩], 18⟩,
        ⟨512, 1023, [⟨['c'], [], [], 512, 18, 0⟩], 18⟩]).composition :=
  (c5_roundtrip (MemLayout.mk [⟨0, 511, [⟨['a'], [], [], 512, 9, 9⟩,
      ⟨['b'], [], [], 512, 9, 0⟩], 18⟩, ⟨512, 1023, [⟨['c'], [], [], 512, 18, 0⟩], 18⟩])
    [['a'], ['b'], ['c']] (sampleF 512 9) (fun n => rfl) (by decide) (by decide)
    (by decide) (by decide) (by decide)).1

end PbUpdate
